import Mathlib

/-!
Verification development for the repository's simulation engine
(`src/utils/simulation.ts`).

The engine explores, for each win condition, the unmodified hand first and
then every ordering of usable "free" cards, recording every explored branch
in an insertion-ordered mapping keyed by condition object identity.

Object identity (JavaScript reference equality, used by `Array.includes`
on cards and by `Map` keys on conditions) is embedded as an explicit `id`
field carried by cards and conditions; structural value is everything else.
Collaborators that are part of the repository but outside the reviewed
source (`GameState`, `Card`, the condition codec, the free-card processor)
are modelled from the specification and marked as such.
-/

set_option autoImplicit false

/-- A card.  The `id` field embeds JavaScript object identity; the other
fields are the card's structural value.  `isFree` marks the `FreeCard`
variant, `oncePerTurn` its once-per-turn restriction, and `drawCount` how
many cards playing it draws.  Modelled from the spec: the card type itself
lives outside the reviewed source. -/
structure Card where
  id : Nat
  name : String
  isFree : Bool
  oncePerTurn : Bool
  drawCount : Nat
deriving DecidableEq, Repr

/-- Serialised form of a card: its structural value, with no identity. -/
structure SerialisedCard where
  name : String
  isFree : Bool
  oncePerTurn : Bool
  drawCount : Nat
deriving DecidableEq, Repr

def Card.serialise (c : Card) : SerialisedCard :=
  ⟨c.name, c.isFree, c.oncePerTurn, c.drawCount⟩

/-- Decoding a card allocates a fresh object; `fresh` is its new identity. -/
def Card.deserialise (fresh : Nat) (s : SerialisedCard) : Card :=
  ⟨fresh, s.name, s.isFree, s.oncePerTurn, s.drawCount⟩

/-- Decode a list of cards, allocating consecutive fresh identities. -/
def deserialiseCards (fresh : Nat) : List SerialisedCard → List Card
  | [] => []
  | s :: rest => Card.deserialise fresh s :: deserialiseCards (fresh + 1) rest

/-- A condition.  `id` embeds object identity (conditions are `Map` keys
compared by reference in the source); `data` is its structural value.
Modelled from the spec: conditions are opaque, identity-comparable values
with a structured serialised form. -/
structure BaseCondition where
  id : Nat
  data : String
deriving DecidableEq, Repr

abbrev SerialisedCondition := String

/-- Modelled from the spec: serialising a condition keeps its structural
value and drops its identity. -/
def serialiseCondition (c : BaseCondition) : SerialisedCondition := c.data

/-- Modelled from the spec: decoding a condition allocates a fresh object
(`fresh` is its new identity) carrying the persisted structural value. -/
def deserialiseCondition (fresh : Nat) (s : SerialisedCondition) : BaseCondition :=
  ⟨fresh, s⟩

/-- Decode a list of conditions, allocating consecutive fresh identities,
one `deserialiseCondition` call per element as in the source. -/
def decodeConditions (fresh : Nat) : List SerialisedCondition → List BaseCondition
  | [] => []
  | s :: rest => deserialiseCondition fresh s :: decodeConditions (fresh + 1) rest

/-- Game state: a deck, a hand, and the cards played this turn.  Modelled
from the spec: a mutable aggregate of `deck` and `hand` with the derived
views and operations listed in the interface table. -/
structure GameState where
  deck : List Card
  hand : List Card
  cardsPlayedThisTurn : List Card
deriving DecidableEq, Repr

/-- Modelled from the spec: `deepCopy` returns a fully independent clone
with no shared mutable substructure.  Cards themselves are immutable
shared objects (the search's identity-based `usedCards` exclusion relies
on card identity surviving the copy), so in this value-semantic embedding
the clone is the same value. -/
def GameState.deepCopy (g : GameState) : GameState := g

/-- Modelled from the spec: the free cards currently in hand. -/
def GameState.freeCardsInHand (g : GameState) : List Card :=
  g.hand.filter (fun c => c.isFree)

structure SerialisedGameState where
  deck : List SerialisedCard
  hand : List SerialisedCard
  cardsPlayedThisTurn : List SerialisedCard
deriving DecidableEq, Repr

/-- Modelled from the spec: game-state serialisation keeps structural
values and drops object identities. -/
def GameState.serialise (g : GameState) : SerialisedGameState :=
  ⟨g.deck.map Card.serialise, g.hand.map Card.serialise,
   g.cardsPlayedThisTurn.map Card.serialise⟩

/-- Modelled from the spec: decoding a game state allocates fresh card
objects for every persisted card. -/
def GameState.deserialize (fresh : Nat) (s : SerialisedGameState) : GameState :=
  ⟨deserialiseCards fresh s.deck,
   deserialiseCards (fresh + s.deck.length) s.hand,
   deserialiseCards (fresh + s.deck.length + s.hand.length) s.cardsPlayedThisTurn⟩

/-- Modelled from the spec: a free card is usable when it is free and, if
restricted to once per turn, no free card of the same name has been played
this turn. -/
def freeCardIsUsable (g : GameState) (c : Card) : Bool :=
  c.isFree &&
    (!c.oncePerTurn ||
      !(g.cardsPlayedThisTurn.any (fun p => p.isFree && p.name == c.name)))

/-- Modelled from the spec: processing a free card plays it (removes it
from the hand by object identity and appends it to the played-this-turn
record) and draws `drawCount` cards from the top of the deck into the
hand. -/
def processFreeCard (g : GameState) (c : Card) : GameState :=
  { deck := g.deck.drop c.drawCount,
    hand := g.hand.eraseP (fun x => x.id == c.id) ++ g.deck.take c.drawCount,
    cardsPlayedThisTurn := g.cardsPlayedThisTurn ++ [c] }

/-- The condition evaluator is an opaque external capability
(`evaluateCondition(condition, hand, deckList)`); it is a parameter of the
engine's operations. -/
abbrev Evaluator := BaseCondition → List Card → List Card → Bool

/-- One explored timeline: an owned game-state copy, the verdict, and the
condition under test (`SimulationBranch` in the source). -/
structure SimulationBranch where
  gameState : GameState
  result : Bool
  condition : BaseCondition
deriving DecidableEq, Repr

/-- The `SimulationBranch` constructor: deep-copies the game state and
stores the condition by reference; `result` starts `false`. -/
def SimulationBranch.new (gameState : GameState) (condition : BaseCondition) :
    SimulationBranch :=
  ⟨gameState.deepCopy, false, condition⟩

/-- `SimulationBranch.run`: evaluates the condition against the owned
hand and deck list and stores the verdict. -/
def SimulationBranch.run (eval : Evaluator) (b : SimulationBranch) :
    SimulationBranch :=
  { b with result := eval b.condition b.gameState.hand b.gameState.deck }

structure SerialisedSimulationBranch where
  result : Bool
  gameState : SerialisedGameState
  condition : SerialisedCondition
deriving DecidableEq, Repr

/-- `SimulationBranch.serialise`. -/
def SimulationBranch.serialise (b : SimulationBranch) : SerialisedSimulationBranch :=
  ⟨b.result, b.gameState.serialise, serialiseCondition b.condition⟩

/-- `SimulationBranch.deserialise`: decodes the game state and condition
(fresh objects, `fresh` being the decoded condition's new identity), builds
the branch through the normal constructor, then overwrites the default
`result` with the persisted one. -/
def SimulationBranch.deserialise (fresh : Nat) (s : SerialisedSimulationBranch) :
    SimulationBranch :=
  let gameState := GameState.deserialize 0 s.gameState
  let condition := deserialiseCondition fresh s.condition
  let branch := SimulationBranch.new gameState condition
  { branch with result := s.result }

/-- Decode a list of branches, allocating consecutive fresh condition
identities, one `SimulationBranch.deserialise` call per element as in the
source. -/
def decodeBranches (fresh : Nat) : List SerialisedSimulationBranch → List SimulationBranch
  | [] => []
  | s :: rest => SimulationBranch.deserialise fresh s :: decodeBranches (fresh + 1) rest

/-- The branch mapping: a JavaScript `Map` keyed by condition object
identity, in insertion order, embedded as an association list with
identity-distinct keys. -/
abbrev BranchMap := List (BaseCondition × List SimulationBranch)

/-- The simulation: baseline game state, branch mapping, condition list. -/
structure Simulation where
  gameState : GameState
  branches : BranchMap
  conditions : List BaseCondition
deriving DecidableEq, Repr

/-- The `Simulation` constructor: deep-copies the game state, starts with
an empty branch mapping, and stores the condition list as given. -/
def Simulation.new (gameState : GameState) (conditions : List BaseCondition) :
    Simulation :=
  ⟨gameState.deepCopy, [], conditions⟩

/-- `Map` insertion as performed by `runBranch` and `deserialise`: if the
key (compared by identity) is absent, a fresh empty entry is appended at
the end; the branch is then pushed onto the key's list. -/
def insertBranch : BranchMap → SimulationBranch → BranchMap
  | [], b => [(b.condition, [b])]
  | (c, bs) :: rest, b =>
    if c.id == b.condition.id then (c, bs ++ [b]) :: rest
    else (c, bs) :: insertBranch rest b

/-- `Simulation.runBranch`: runs the branch, then records it under its
condition. -/
def Simulation.runBranch (eval : Evaluator) (sim : Simulation)
    (branch : SimulationBranch) : Simulation :=
  let b := branch.run eval
  { sim with branches := insertBranch sim.branches b }

/-- `Simulation.successfulBranches`: for each condition, the first
recorded branch whose result is true, if any. -/
def Simulation.successfulBranches (sim : Simulation) :
    List (BaseCondition × Option SimulationBranch) :=
  sim.branches.map (fun e => (e.1, e.2.find? (fun b => b.result)))

/-- `Simulation.result`: some entry of `successfulBranches` carries a
defined branch whose result is true.  (The source's `console.log` on the
success path is an output effect with no bearing on the value.) -/
def Simulation.result (sim : Simulation) : Bool :=
  sim.successfulBranches.any (fun e =>
    match e.2 with
    | some b => b.result
    | none => false)

/-- `Simulation.failedBranches`: for each condition, the first recorded
branch whose result is false, if any. -/
def Simulation.failedBranches (sim : Simulation) :
    List (BaseCondition × Option SimulationBranch) :=
  sim.branches.map (fun e => (e.1, e.2.find? (fun b => !b.result)))

/-- The candidate set of `generateFreeCardPermutations`: free cards in
hand that are usable and not yet in `usedCards`, the latter exclusion by
object identity (`Array.includes` reference equality). -/
def candidateFreeCards (g : GameState) (used : List Card) : List Card :=
  g.freeCardsInHand.filter (fun c =>
    freeCardIsUsable g c && !(used.any (fun u => u.id == c.id)))

/-- Hand size plus deck size: the termination measure of the permutation
search (processing a free card in hand strictly shrinks it). -/
def GameState.metric (g : GameState) : Nat := g.hand.length + g.deck.length

/-- The body of `generateFreeCardPermutations`'s `for` loop over the
candidate list: re-checks usability, builds a branch on a deep copy,
processes the free card into it, runs and records it, stops if the
simulation's overall result is now true, and otherwise recurses (through
`next`) on the branch's state with the card appended to `usedCards`
before moving to the next candidate. -/
def permLoop (eval : Evaluator)
    (next : Simulation → GameState → List Card → Simulation)
    (gs : GameState) (cond : BaseCondition) (used : List Card) :
    Simulation → List Card → Simulation
  | sim, [] => sim
  | sim, c :: rest =>
    if freeCardIsUsable gs c then
      let branch := SimulationBranch.new gs.deepCopy cond
      let branch := { branch with gameState := processFreeCard branch.gameState c }
      let sim1 := sim.runBranch eval branch
      if sim1.result then sim1
      else
        let sim2 := next sim1 branch.gameState (used ++ [c])
        permLoop eval next gs cond used sim2 rest
    else
      permLoop eval next gs cond used sim rest

/-- `generateFreeCardPermutations`, with the recursion depth made explicit
as structural fuel: computes the candidate set, returns at once when it is
empty, and otherwise walks it with `permLoop`, recursing with one unit of
fuel less.  The wrapper `Simulation.generateFreeCardPermutations` supplies
fuel exceeding the termination measure, which the recursion can never
exhaust (`genPermsAux_fuel_stable`). -/
def genPermsAux (eval : Evaluator) :
    Nat → Simulation → GameState → BaseCondition → List Card → Simulation
  | 0, sim, _, _, _ => sim
  | fuel + 1, sim, gs, cond, used =>
    let freeCards := candidateFreeCards gs used
    if freeCards.length = 0 then sim
    else permLoop eval (fun s g u => genPermsAux eval fuel s g cond u)
      gs cond used sim freeCards

/-- `Simulation.generateFreeCardPermutations`. -/
def Simulation.generateFreeCardPermutations (eval : Evaluator) (sim : Simulation)
    (gs : GameState) (cond : BaseCondition) (used : List Card) : Simulation :=
  genPermsAux eval (gs.metric + 1) sim gs cond used

/-- The `forEach` callback of `Simulation.iterate`: runs a baseline branch
from the simulation's own game state and records it; the callback's
`return` — which in JavaScript skips only the rest of the current
callback, not the remaining conditions — then skips the free-card
permutation search when the overall result is already true. -/
def Simulation.iterateStep (eval : Evaluator) (s : Simulation)
    (cond : BaseCondition) : Simulation :=
  let branch := SimulationBranch.new s.gameState cond
  let s1 := s.runBranch eval branch
  if s1.result then s1
  else s1.generateFreeCardPermutations eval s1.gameState cond []

/-- `Simulation.iterate`: the `forEach` over the condition list. -/
def Simulation.iterate (eval : Evaluator) (sim : Simulation) : Simulation :=
  sim.conditions.foldl (Simulation.iterateStep eval) sim

structure SerialisedSimulation where
  gameState : SerialisedGameState
  conditions : List SerialisedCondition
  branches : List SerialisedSimulationBranch
deriving DecidableEq, Repr

/-- `Simulation.serialise`: baseline state, condition list, and the branch
mapping flattened entry by entry in insertion order. -/
def Simulation.serialise (sim : Simulation) : SerialisedSimulation :=
  ⟨sim.gameState.serialise,
   sim.conditions.map serialiseCondition,
   (sim.branches.map (fun e => e.2.map SimulationBranch.serialise)).flatten⟩

/-- The branches decoded by `Simulation.deserialise`: each serialised
branch is decoded by `SimulationBranch.deserialise`, whose condition gets
a fresh identity past the identities already allocated to the decoded
condition list. -/
def decodedBranches (fresh : Nat) (s : SerialisedSimulation) :
    List SimulationBranch :=
  decodeBranches (fresh + s.conditions.length) s.branches

/-- `Simulation.deserialise`: decodes the game state and the condition
list, builds a fresh simulation, then re-inserts every decoded branch
under that branch's own decoded condition with the same `Map` insertion
as `runBranch`, without re-running anything. -/
def Simulation.deserialise (fresh : Nat) (s : SerialisedSimulation) : Simulation :=
  let gameState := GameState.deserialize 0 s.gameState
  let conditions := decodeConditions fresh s.conditions
  let simulation := Simulation.new gameState conditions
  (decodedBranches fresh s).foldl
    (fun sm b => { sm with branches := insertBranch sm.branches b }) simulation

/-- `runSimulation`: build a simulation and iterate it. -/
def runSimulation (eval : Evaluator) (gameState : GameState)
    (conditions : List BaseCondition) : Simulation :=
  (Simulation.new gameState conditions).iterate eval

/-- Instrumented twin of `permLoop`, also collecting the call log of the
recursive search (the `usedCards` argument of every call entered).  Its
first component coincides with `permLoop` (`permLoopD_fst`). -/
def permLoopD (eval : Evaluator)
    (next : Simulation → GameState → List Card → Simulation × List (List Card))
    (gs : GameState) (cond : BaseCondition) (used : List Card) :
    Simulation → List Card → Simulation × List (List Card)
  | sim, [] => (sim, [])
  | sim, c :: rest =>
    if freeCardIsUsable gs c then
      let branch := SimulationBranch.new gs.deepCopy cond
      let branch := { branch with gameState := processFreeCard branch.gameState c }
      let sim1 := sim.runBranch eval branch
      if sim1.result then (sim1, [])
      else
        let r2 := next sim1 branch.gameState (used ++ [c])
        let r3 := permLoopD eval next gs cond used r2.1 rest
        (r3.1, r2.2 ++ r3.2)
    else
      permLoopD eval next gs cond used sim rest

/-- Instrumented twin of `genPermsAux`: the second component logs the
`usedCards` argument of every call of the search, the current call first.
Its first component coincides with `genPermsAux` (`genPermsAuxD_fst`). -/
def genPermsAuxD (eval : Evaluator) :
    Nat → Simulation → GameState → BaseCondition → List Card →
      Simulation × List (List Card)
  | 0, sim, _, _, used => (sim, [used])
  | fuel + 1, sim, gs, cond, used =>
    let freeCards := candidateFreeCards gs used
    if freeCards.length = 0 then (sim, [used])
    else
      let r := permLoopD eval (fun s g u => genPermsAuxD eval fuel s g cond u)
        gs cond used sim freeCards
      (r.1, used :: r.2)

/-- The call log of `Simulation.generateFreeCardPermutations`: the
`usedCards` argument of every call the search enters, the root call
included. -/
def genPermsCallLog (eval : Evaluator) (sim : Simulation) (gs : GameState)
    (cond : BaseCondition) (used : List Card) : List (List Card) :=
  (genPermsAuxD eval (gs.metric + 1) sim gs cond used).2

/-- Look up the branch list recorded under the condition with identity
`i`, as the source's `Map.get` keyed by condition object identity. -/
def lookupBranches (m : BranchMap) (i : Nat) : Option (List SimulationBranch) :=
  (m.find? (fun e => e.1.id == i)).map (fun e => e.2)

/-- `m'` extends `m`: every key of `m` is still present and its branch
list has only been appended to. -/
def BranchMapExtends (m m' : BranchMap) : Prop :=
  ∀ i l, lookupBranches m i = some l → ∃ t, lookupBranches m' i = some (l ++ t)

/-- `ob` is the first branch of `bs`, in recorded order, whose result is
false — or `none` when every branch of `bs` succeeded. -/
def IsFirstFailing (bs : List SimulationBranch) : Option SimulationBranch → Prop
  | none => ∀ b ∈ bs, b.result = true
  | some b => ∃ l1 l2, bs = l1 ++ b :: l2 ∧ b.result = false ∧
      ∀ x ∈ l1, x.result = true

/-- A game state is well formed when the object identities of its hand
and deck cards are pairwise distinct, as JavaScript reference identity
guarantees for distinct objects. -/
def GameState.wellFormed (g : GameState) : Prop :=
  ((g.hand ++ g.deck).map (fun c => c.id)).Nodup

/-- The free cards available to the search: those in hand or still in the
deck. -/
def freeCount (g : GameState) : Nat :=
  ((g.hand ++ g.deck).filter (fun c => c.isFree)).length

/-- Total number of branches recorded across the whole mapping. -/
def totalBranches (sim : Simulation) : Nat :=
  (sim.branches.map (fun e => e.2.length)).sum

/-- The simulation's flattened branch results, in mapping order. -/
def flatResults (sim : Simulation) : List Bool :=
  (sim.branches.map (fun e => e.2.map (fun b => b.result))).flatten

/-- Fixture: a free card that draws one card when played (identity 1). -/
def cardDrawOne : Card := ⟨1, "alpha", true, false, 1⟩

/-- Fixture: a free card with no draw effect (identity 2). -/
def cardPlain : Card := ⟨2, "beta", true, false, 0⟩

/-- Fixture: a condition object with identity 10. -/
def condA : BaseCondition := ⟨10, "condA"⟩

/-- Fixture: a condition object with identity 11. -/
def condB : BaseCondition := ⟨11, "condB"⟩

/-- Fixture: an evaluator that never satisfies any condition. -/
def evalNever : Evaluator := fun _ _ _ => false

/-- Fixture: an evaluator satisfied exactly by the condition with
identity 10, whatever the hand and deck. -/
def evalCondA : Evaluator := fun c _ _ => c.id == 10

/-- Fixture: hand holding the drawing free card, deck holding the other
free card. -/
def stateDraw : GameState := ⟨[cardPlain], [cardDrawOne], []⟩

/-- Fixture: empty game state. -/
def stateEmpty : GameState := ⟨[], [], []⟩

section BasicLemmas

@[simp] theorem GameState.deepCopy_eq (g : GameState) : g.deepCopy = g := rfl

@[simp] theorem SimulationBranch.run_condition (eval : Evaluator) (b : SimulationBranch) :
    (b.run eval).condition = b.condition := rfl

@[simp] theorem SimulationBranch.run_gameState (eval : Evaluator) (b : SimulationBranch) :
    (b.run eval).gameState = b.gameState := rfl

@[simp] theorem SimulationBranch.run_result (eval : Evaluator) (b : SimulationBranch) :
    (b.run eval).result = eval b.condition b.gameState.hand b.gameState.deck := rfl

@[simp] theorem Simulation.runBranch_branches (eval : Evaluator) (sim : Simulation)
    (b : SimulationBranch) :
    (sim.runBranch eval b).branches = insertBranch sim.branches (b.run eval) := rfl

@[simp] theorem Simulation.runBranch_gameState (eval : Evaluator) (sim : Simulation)
    (b : SimulationBranch) : (sim.runBranch eval b).gameState = sim.gameState := rfl

@[simp] theorem Simulation.runBranch_conditions (eval : Evaluator) (sim : Simulation)
    (b : SimulationBranch) : (sim.runBranch eval b).conditions = sim.conditions := rfl

@[simp] theorem lookupBranches_nil (i : Nat) : lookupBranches [] i = none := rfl

theorem lookupBranches_cons (c : BaseCondition) (bs : List SimulationBranch)
    (rest : BranchMap) (i : Nat) :
    lookupBranches ((c, bs) :: rest) i =
      if c.id == i then some bs else lookupBranches rest i := by
  by_cases h : c.id == i <;> simp [lookupBranches, List.find?_cons, h]

theorem branchMapExtends_refl (m : BranchMap) : BranchMapExtends m m := by
  intro i l h
  exact ⟨[], by simpa using h⟩

theorem branchMapExtends_trans {m1 m2 m3 : BranchMap}
    (h1 : BranchMapExtends m1 m2) (h2 : BranchMapExtends m2 m3) :
    BranchMapExtends m1 m3 := by
  intro i l h
  obtain ⟨t, ht⟩ := h1 i l h
  obtain ⟨t', ht'⟩ := h2 i (l ++ t) ht
  exact ⟨t ++ t', by simpa [List.append_assoc] using ht'⟩

theorem insertBranch_extends (m : BranchMap) (b : SimulationBranch) :
    BranchMapExtends m (insertBranch m b) := by
  induction m with
  | nil => intro i l h; simp at h
  | cons e rest ih =>
    obtain ⟨c, bs⟩ := e
    intro i l h
    rw [lookupBranches_cons] at h
    by_cases hk : c.id = b.condition.id
    · simp only [insertBranch, beq_iff_eq, hk, if_true]
      by_cases hi : c.id = i
      · refine ⟨[b], ?_⟩
        rw [lookupBranches_cons]
        simp only [beq_iff_eq, hi, if_true] at h ⊢
        simp [← Option.some_inj.mp h]
      · rw [lookupBranches_cons]
        simp only [beq_iff_eq, hi, if_false] at h ⊢
        exact ⟨[], by simpa using h⟩
    · simp only [insertBranch, beq_iff_eq, hk, if_false]
      by_cases hi : c.id = i
      · refine ⟨[], ?_⟩
        rw [lookupBranches_cons]
        simp only [beq_iff_eq, hi, if_true] at h ⊢
        simpa using h
      · rw [lookupBranches_cons]
        simp only [beq_iff_eq, hi, if_false] at h ⊢
        exact ih i l h

theorem lookup_insertBranch_self (m : BranchMap) (b : SimulationBranch) :
    ∃ l, lookupBranches (insertBranch m b) b.condition.id = some l ∧ l ≠ [] := by
  induction m with
  | nil =>
    refine ⟨[b], ?_, by simp⟩
    simp [insertBranch, lookupBranches_cons]
  | cons e rest ih =>
    obtain ⟨c, bs⟩ := e
    by_cases hk : c.id = b.condition.id
    · refine ⟨bs ++ [b], ?_, by simp⟩
      simp only [insertBranch, beq_iff_eq, hk, if_true]
      rw [lookupBranches_cons]
      simp [hk]
    · obtain ⟨l, hl, hne⟩ := ih
      refine ⟨l, ?_, hne⟩
      simp only [insertBranch, beq_iff_eq, hk, if_false]
      rw [lookupBranches_cons]
      simp [hk, hl]

theorem extends_nonempty {m m' : BranchMap} (h : BranchMapExtends m m')
    {i : Nat} {l : List SimulationBranch}
    (hl : lookupBranches m i = some l) (hne : l ≠ []) :
    ∃ l', lookupBranches m' i = some l' ∧ l' ≠ [] := by
  obtain ⟨t, ht⟩ := h i l hl
  exact ⟨l ++ t, ht, by simp [hne]⟩

theorem sumLengths_insertBranch (m : BranchMap) (b : SimulationBranch) :
    ((insertBranch m b).map (fun e => e.2.length)).sum =
      (m.map (fun e => e.2.length)).sum + 1 := by
  induction m with
  | nil => simp [insertBranch]
  | cons e rest ih =>
    obtain ⟨c, bs⟩ := e
    by_cases hk : c.id = b.condition.id
    · simp only [insertBranch, beq_iff_eq, hk, if_true]
      simp [Nat.add_assoc, Nat.add_comm, Nat.add_left_comm]
    · simp only [insertBranch, beq_iff_eq, hk, if_false]
      simp [ih, Nat.add_assoc, Nat.add_comm, Nat.add_left_comm]

theorem insertBranch_append_of_not_key (m : BranchMap) (b : SimulationBranch)
    (h : ∀ e ∈ m, e.1.id ≠ b.condition.id) :
    insertBranch m b = m ++ [(b.condition, [b])] := by
  induction m with
  | nil => simp [insertBranch]
  | cons e rest ih =>
    obtain ⟨c, bs⟩ := e
    have hc : c.id ≠ b.condition.id := h (c, bs) (by simp)
    simp only [insertBranch, beq_iff_eq, hc, if_false]
    rw [ih (fun e he => h e (by simp [he]))]
    simp

end BasicLemmas

section SearchLemmas

theorem permLoop_extends (eval : Evaluator)
    (next : Simulation → GameState → List Card → Simulation)
    (hnext : ∀ s g u, BranchMapExtends s.branches (next s g u).branches)
    (gs : GameState) (cond : BaseCondition) (used : List Card) :
    ∀ (cs : List Card) (sim : Simulation),
      BranchMapExtends sim.branches
        (permLoop eval next gs cond used sim cs).branches := by
  intro cs
  induction cs with
  | nil => intro sim; simp only [permLoop]; exact branchMapExtends_refl _
  | cons c rest ih =>
    intro sim
    simp only [permLoop]
    split
    · split
      · exact insertBranch_extends _ _
      · refine branchMapExtends_trans ?_ (ih _)
        refine branchMapExtends_trans ?_ (hnext _ _ _)
        exact insertBranch_extends _ _
    · exact ih sim

theorem permLoop_gameState (eval : Evaluator)
    (next : Simulation → GameState → List Card → Simulation)
    (hnext : ∀ s g u, (next s g u).gameState = s.gameState)
    (gs : GameState) (cond : BaseCondition) (used : List Card) :
    ∀ (cs : List Card) (sim : Simulation),
      (permLoop eval next gs cond used sim cs).gameState = sim.gameState := by
  intro cs
  induction cs with
  | nil => intro sim; simp only [permLoop]
  | cons c rest ih =>
    intro sim
    simp only [permLoop]
    split
    · split
      · simp
      · rw [ih, hnext]
        simp
    · exact ih sim

theorem permLoop_conditions (eval : Evaluator)
    (next : Simulation → GameState → List Card → Simulation)
    (hnext : ∀ s g u, (next s g u).conditions = s.conditions)
    (gs : GameState) (cond : BaseCondition) (used : List Card) :
    ∀ (cs : List Card) (sim : Simulation),
      (permLoop eval next gs cond used sim cs).conditions = sim.conditions := by
  intro cs
  induction cs with
  | nil => intro sim; simp only [permLoop]
  | cons c rest ih =>
    intro sim
    simp only [permLoop]
    split
    · split
      · simp
      · rw [ih, hnext]
        simp
    · exact ih sim

theorem genPermsAux_extends (eval : Evaluator) :
    ∀ (fuel : Nat) (sim : Simulation) (gs : GameState) (cond : BaseCondition)
      (used : List Card),
      BranchMapExtends sim.branches
        (genPermsAux eval fuel sim gs cond used).branches := by
  intro fuel
  induction fuel with
  | zero => intro sim gs cond used; exact branchMapExtends_refl _
  | succ fuel ih =>
    intro sim gs cond used
    simp only [genPermsAux]
    by_cases hlen : (candidateFreeCards gs used).length = 0
    · simp only [hlen, if_true]
      exact branchMapExtends_refl _
    · simp only [hlen, if_false]
      exact permLoop_extends eval _ (fun s g u => ih s g cond u) gs cond used _ sim

theorem genPermsAux_gameState (eval : Evaluator) :
    ∀ (fuel : Nat) (sim : Simulation) (gs : GameState) (cond : BaseCondition)
      (used : List Card),
      (genPermsAux eval fuel sim gs cond used).gameState = sim.gameState := by
  intro fuel
  induction fuel with
  | zero => intro sim gs cond used; rfl
  | succ fuel ih =>
    intro sim gs cond used
    simp only [genPermsAux]
    by_cases hlen : (candidateFreeCards gs used).length = 0
    · simp only [hlen, if_true]
    · simp only [hlen, if_false]
      exact permLoop_gameState eval _ (fun s g u => ih s g cond u) gs cond used _ sim

theorem genPermsAux_conditions (eval : Evaluator) :
    ∀ (fuel : Nat) (sim : Simulation) (gs : GameState) (cond : BaseCondition)
      (used : List Card),
      (genPermsAux eval fuel sim gs cond used).conditions = sim.conditions := by
  intro fuel
  induction fuel with
  | zero => intro sim gs cond used; rfl
  | succ fuel ih =>
    intro sim gs cond used
    simp only [genPermsAux]
    by_cases hlen : (candidateFreeCards gs used).length = 0
    · simp only [hlen, if_true]
    · simp only [hlen, if_false]
      exact permLoop_conditions eval _ (fun s g u => ih s g cond u) gs cond used _ sim

theorem genPermsAux_of_no_candidates (eval : Evaluator) (fuel : Nat)
    (sim : Simulation) (gs : GameState) (cond : BaseCondition) (used : List Card)
    (h : candidateFreeCards gs used = []) :
    genPermsAux eval fuel sim gs cond used = sim := by
  cases fuel with
  | zero => rfl
  | succ fuel => simp [genPermsAux, h]

theorem candidateFreeCards_of_no_free (g : GameState) (used : List Card)
    (h : g.freeCardsInHand = []) : candidateFreeCards g used = [] := by
  simp [candidateFreeCards, h]

end SearchLemmas

section IterateLemmas

theorem iterateStep_gameState (eval : Evaluator) (s : Simulation)
    (cond : BaseCondition) :
    (s.iterateStep eval cond).gameState = s.gameState := by
  simp only [Simulation.iterateStep]
  split
  · simp
  · simp [Simulation.generateFreeCardPermutations, genPermsAux_gameState]

theorem iterateStep_conditions (eval : Evaluator) (s : Simulation)
    (cond : BaseCondition) :
    (s.iterateStep eval cond).conditions = s.conditions := by
  simp only [Simulation.iterateStep]
  split
  · simp
  · simp [Simulation.generateFreeCardPermutations, genPermsAux_conditions]

theorem iterateStep_extends (eval : Evaluator) (s : Simulation)
    (cond : BaseCondition) :
    BranchMapExtends s.branches (s.iterateStep eval cond).branches := by
  simp only [Simulation.iterateStep]
  split
  · exact insertBranch_extends _ _
  · refine branchMapExtends_trans ?_
      (genPermsAux_extends eval _ _ _ _ _)
    exact insertBranch_extends _ _

theorem iterateStep_self (eval : Evaluator) (s : Simulation)
    (cond : BaseCondition) :
    ∃ l, lookupBranches (s.iterateStep eval cond).branches cond.id = some l ∧
      l ≠ [] := by
  simp only [Simulation.iterateStep]
  obtain ⟨l, hl, hne⟩ :=
    lookup_insertBranch_self s.branches ((SimulationBranch.new s.gameState cond).run eval)
  split
  · exact ⟨l, hl, hne⟩
  · exact extends_nonempty (genPermsAux_extends eval _ _ _ _ _) hl hne

theorem iterateFold_gameState (eval : Evaluator) :
    ∀ (conds : List BaseCondition) (s : Simulation),
      (List.foldl (Simulation.iterateStep eval) s conds).gameState = s.gameState := by
  intro conds
  induction conds with
  | nil => intro s; rfl
  | cons c rest ih =>
    intro s
    simp only [List.foldl_cons]
    rw [ih, iterateStep_gameState]

theorem iterateFold_conditions (eval : Evaluator) :
    ∀ (conds : List BaseCondition) (s : Simulation),
      (List.foldl (Simulation.iterateStep eval) s conds).conditions = s.conditions := by
  intro conds
  induction conds with
  | nil => intro s; rfl
  | cons c rest ih =>
    intro s
    simp only [List.foldl_cons]
    rw [ih, iterateStep_conditions]

theorem iterateFold_extends (eval : Evaluator) :
    ∀ (conds : List BaseCondition) (s : Simulation),
      BranchMapExtends s.branches
        (List.foldl (Simulation.iterateStep eval) s conds).branches := by
  intro conds
  induction conds with
  | nil => intro s; exact branchMapExtends_refl _
  | cons c rest ih =>
    intro s
    simp only [List.foldl_cons]
    exact branchMapExtends_trans (iterateStep_extends eval s c) (ih _)

theorem iterateFold_mem (eval : Evaluator) :
    ∀ (conds : List BaseCondition) (s : Simulation) (c : BaseCondition),
      c ∈ conds →
      ∃ l, lookupBranches
        (List.foldl (Simulation.iterateStep eval) s conds).branches c.id =
          some l ∧ l ≠ [] := by
  intro conds
  induction conds with
  | nil => intro s c hc; simp at hc
  | cons c0 rest ih =>
    intro s c hc
    simp only [List.foldl_cons]
    rcases List.mem_cons.mp hc with hc | hc
    · subst hc
      obtain ⟨l, hl, hne⟩ := iterateStep_self eval s c
      exact extends_nonempty (iterateFold_extends eval rest _) hl hne
    · exact ih _ c hc

theorem iterateStep_total_nofree (eval : Evaluator) (s : Simulation)
    (cond : BaseCondition) (h : s.gameState.freeCardsInHand = []) :
    totalBranches (s.iterateStep eval cond) = totalBranches s + 1 := by
  simp only [Simulation.iterateStep]
  split
  · exact sumLengths_insertBranch _ _
  · rw [Simulation.generateFreeCardPermutations,
      genPermsAux_of_no_candidates eval _ _ _ _ _
        (candidateFreeCards_of_no_free _ _ (by simpa using h))]
    exact sumLengths_insertBranch _ _

theorem iterateFold_total_nofree (eval : Evaluator) :
    ∀ (conds : List BaseCondition) (s : Simulation),
      s.gameState.freeCardsInHand = [] →
      totalBranches (List.foldl (Simulation.iterateStep eval) s conds) =
        totalBranches s + conds.length := by
  intro conds
  induction conds with
  | nil => intro s _; rfl
  | cons c rest ih =>
    intro s h
    simp only [List.foldl_cons]
    rw [ih _ (by rw [iterateStep_gameState]; exact h),
      iterateStep_total_nofree eval s c h]
    simp [List.length_cons, Nat.add_assoc, Nat.add_comm, Nat.add_left_comm]

end IterateLemmas

section ResultLemmas

theorem result_iff_exists (sim : Simulation) :
    sim.result = true ↔
      ∃ e ∈ sim.branches, ∃ b ∈ e.2, b.result = true := by
  constructor
  · intro h
    simp only [Simulation.result, Simulation.successfulBranches, List.any_eq_true,
      List.mem_map] at h
    obtain ⟨x, ⟨e, he, hx⟩, hres⟩ := h
    subst hx
    dsimp at hres
    rcases hf : e.2.find? (fun b => b.result) with _ | b
    · rw [hf] at hres; simp at hres
    · refine ⟨e, he, b, List.mem_of_find?_eq_some hf, List.find?_some hf⟩
  · rintro ⟨e, he, b, hb, hres⟩
    simp only [Simulation.result, Simulation.successfulBranches, List.any_eq_true,
      List.mem_map]
    refine ⟨(e.1, e.2.find? (fun x => x.result)), ⟨e, he, rfl⟩, ?_⟩
    have hs : (e.2.find? (fun x => x.result)).isSome := by
      rw [List.find?_isSome]
      exact ⟨b, hb, hres⟩
    obtain ⟨b', hf⟩ := Option.isSome_iff_exists.mp hs
    simp only [hf]
    exact List.find?_some hf

theorem find?_isFirstFailing (bs : List SimulationBranch) :
    IsFirstFailing bs (bs.find? (fun b => !b.result)) := by
  induction bs with
  | nil => simp [IsFirstFailing]
  | cons b t ih =>
    by_cases hb : b.result = true
    · rw [List.find?_cons_of_neg _ (by simp [hb])]
      rcases hf : t.find? (fun x => !x.result) with _ | x
      · rw [hf] at ih
        have ih' : ∀ y ∈ t, y.result = true := ih
        rw [hf]
        show ∀ y ∈ b :: t, y.result = true
        intro y hy
        rcases List.mem_cons.mp hy with hy | hy
        · subst hy; exact hb
        · exact ih' y hy
      · rw [hf] at ih
        have ih' : ∃ l1 l2, t = l1 ++ x :: l2 ∧ x.result = false ∧
            ∀ y ∈ l1, y.result = true := ih
        rw [hf]
        show ∃ l1 l2, b :: t = l1 ++ x :: l2 ∧ x.result = false ∧
          ∀ y ∈ l1, y.result = true
        obtain ⟨l1, l2, hsplit, hx, hall⟩ := ih'
        refine ⟨b :: l1, l2, by simp [hsplit], hx, ?_⟩
        intro y hy
        rcases List.mem_cons.mp hy with hy | hy
        · subst hy; exact hb
        · exact hall y hy
    · rw [List.find?_cons_of_pos _ (by simp [hb])]
      show ∃ l1 l2, b :: t = l1 ++ b :: l2 ∧ b.result = false ∧
        ∀ y ∈ l1, y.result = true
      exact ⟨[], t, rfl, by simpa using hb, by simp⟩

end ResultLemmas

section CandidateLemmas

theorem mem_freeCardsInHand (g : GameState) (c : Card) :
    c ∈ g.freeCardsInHand ↔ c ∈ g.hand ∧ c.isFree = true := by
  simp [GameState.freeCardsInHand, List.mem_filter]

theorem mem_candidateFreeCards (g : GameState) (used : List Card) (c : Card) :
    c ∈ candidateFreeCards g used ↔
      c ∈ g.freeCardsInHand ∧ freeCardIsUsable g c = true ∧
        ∀ u ∈ used, u.id ≠ c.id := by
  simp only [candidateFreeCards, List.mem_filter, Bool.and_eq_true, Bool.not_eq_true',
    List.any_eq_false, beq_iff_eq, beq_eq_false_iff_ne]

end CandidateLemmas

section TwinLemmas

theorem permLoopD_fst (eval : Evaluator)
    (next : Simulation → GameState → List Card → Simulation)
    (nextD : Simulation → GameState → List Card → Simulation × List (List Card))
    (hnext : ∀ s g u, (nextD s g u).1 = next s g u)
    (gs : GameState) (cond : BaseCondition) (used : List Card) :
    ∀ (cs : List Card) (sim : Simulation),
      (permLoopD eval nextD gs cond used sim cs).1 =
        permLoop eval next gs cond used sim cs := by
  intro cs
  induction cs with
  | nil => intro sim; rfl
  | cons c rest ih =>
    intro sim
    simp only [permLoopD, permLoop]
    split
    · split
      · rfl
      · rw [ih, hnext]
    · exact ih sim

theorem genPermsAuxD_fst (eval : Evaluator) :
    ∀ (fuel : Nat) (sim : Simulation) (gs : GameState) (cond : BaseCondition)
      (used : List Card),
      (genPermsAuxD eval fuel sim gs cond used).1 =
        genPermsAux eval fuel sim gs cond used := by
  intro fuel
  induction fuel with
  | zero => intro sim gs cond used; rfl
  | succ fuel ih =>
    intro sim gs cond used
    simp only [genPermsAuxD, genPermsAux]
    split
    · rfl
    · exact permLoopD_fst eval _ _ (fun s g u => ih s g cond u) gs cond used _ sim

end TwinLemmas

section ProcessLemmas

theorem metric_processFreeCard_lt (g : GameState) (c : Card) (hc : c ∈ g.hand) :
    (processFreeCard g c).metric < g.metric := by
  have h1 : (g.hand.eraseP (fun x => x.id == c.id)).length + 1 = g.hand.length :=
    List.length_eraseP_add_one hc (by simp)
  simp only [processFreeCard, GameState.metric, List.length_append, List.length_take,
    List.length_drop]
  omega

theorem eraseP_split :
    ∀ (l : List Card) (c : Card), (l.map (fun x => x.id)).Nodup → c ∈ l →
      ∃ l1 l2, l = l1 ++ c :: l2 ∧
        l.eraseP (fun x => x.id == c.id) = l1 ++ l2 := by
  intro l
  induction l with
  | nil => intro c _ hc; simp at hc
  | cons a t ih =>
    intro c hnd hc
    have hnd0 : (a.id :: t.map (fun x => x.id)).Nodup := by simpa using hnd
    have hnd' : a.id ∉ t.map (fun x => x.id) ∧ (t.map (fun x => x.id)).Nodup :=
      List.nodup_cons.mp hnd0
    rcases List.mem_cons.mp hc with h | h
    · subst h
      refine ⟨[], t, by simp, ?_⟩
      rw [List.eraseP_cons_of_pos (by simp)]
      simp
    · have ha : a.id ≠ c.id := by
        intro he
        have hmem : c.id ∈ t.map (fun x => x.id) := List.mem_map_of_mem _ h
        exact hnd'.1 (he ▸ hmem)
      obtain ⟨l1, l2, hsp, her⟩ := ih c hnd'.2 h
      refine ⟨a :: l1, l2, by simp [hsp], ?_⟩
      rw [List.eraseP_cons_of_neg (by simp [ha])]
      simp [her]

theorem processFreeCard_cons_perm (g : GameState) (c : Card)
    (hnd : (g.hand.map (fun x => x.id)).Nodup) (hc : c ∈ g.hand) :
    List.Perm (c :: ((processFreeCard g c).hand ++ (processFreeCard g c).deck))
      (g.hand ++ g.deck) := by
  obtain ⟨l1, l2, hsp, her⟩ := eraseP_split g.hand c hnd hc
  simp only [processFreeCard]
  rw [her, List.append_assoc, List.take_append_drop]
  conv_rhs => rw [hsp]
  exact (@List.perm_middle Card c l1 l2).symm.append_right g.deck

theorem wellFormed_hand_nodup (g : GameState) (h : g.wellFormed) :
    (g.hand.map (fun x => x.id)).Nodup := by
  rw [GameState.wellFormed, List.map_append] at h
  exact h.of_append_left

theorem freeCount_processFreeCard (g : GameState) (c : Card)
    (hWF : g.wellFormed) (hc : c ∈ g.hand) (hf : c.isFree = true) :
    freeCount (processFreeCard g c) + 1 = freeCount g := by
  have hp := processFreeCard_cons_perm g c (wellFormed_hand_nodup g hWF) hc
  have hfil := hp.filter (fun x => x.isFree)
  have hlen := hfil.length_eq
  rw [List.filter_cons_of_pos hf] at hlen
  simpa [freeCount] using hlen

theorem wellFormed_processFreeCard (g : GameState) (c : Card)
    (hWF : g.wellFormed) (hc : c ∈ g.hand) :
    (processFreeCard g c).wellFormed := by
  have hp := processFreeCard_cons_perm g c (wellFormed_hand_nodup g hWF) hc
  have hpm := hp.map (fun x => x.id)
  have hnd : ((c :: ((processFreeCard g c).hand ++ (processFreeCard g c).deck)).map
      (fun x => x.id)).Nodup := (hpm.nodup_iff).mpr hWF
  rw [List.map_cons] at hnd
  exact (List.nodup_cons.mp hnd).2

end ProcessLemmas

section LogLemmas

@[simp] theorem SimulationBranch.new_gameState (gs : GameState) (c : BaseCondition) :
    (SimulationBranch.new gs c).gameState = gs := rfl

@[simp] theorem SimulationBranch.new_result (gs : GameState) (c : BaseCondition) :
    (SimulationBranch.new gs c).result = false := rfl

@[simp] theorem SimulationBranch.new_condition (gs : GameState) (c : BaseCondition) :
    (SimulationBranch.new gs c).condition = c := rfl

theorem permLoopD_log_mem (eval : Evaluator)
    (nextD : Simulation → GameState → List Card → Simulation × List (List Card))
    (gs : GameState) (cond : BaseCondition) (used : List Card) :
    ∀ (cs : List Card) (sim : Simulation) (e : List Card),
      e ∈ (permLoopD eval nextD gs cond used sim cs).2 →
      ∃ c s', c ∈ cs ∧ e ∈ (nextD s' (processFreeCard gs c) (used ++ [c])).2 := by
  intro cs
  induction cs with
  | nil => intro sim e he; simp [permLoopD] at he
  | cons c rest ih =>
    intro sim e he
    simp only [permLoopD] at he
    split at he
    · split at he
      · simp at he
      · rcases List.mem_append.mp he with he | he
        · exact ⟨c, _, List.mem_cons_self c rest, he⟩
        · obtain ⟨c', s', hc', he'⟩ := ih _ e he
          exact ⟨c', s', List.mem_cons_of_mem c hc', he'⟩
    · obtain ⟨c', s', hc', he'⟩ := ih sim e he
      exact ⟨c', s', List.mem_cons_of_mem c hc', he'⟩

theorem genPermsAuxD_log_grows (eval : Evaluator) :
    ∀ (fuel : Nat) (sim : Simulation) (gs : GameState) (cond : BaseCondition)
      (used e : List Card),
      e ∈ (genPermsAuxD eval fuel sim gs cond used).2 →
      ∃ t, e = used ++ t := by
  intro fuel
  induction fuel with
  | zero =>
    intro sim gs cond used e he
    simp only [genPermsAuxD, List.mem_singleton] at he
    exact ⟨[], by simp [he]⟩
  | succ fuel ih =>
    intro sim gs cond used e he
    simp only [genPermsAuxD] at he
    split at he
    · simp only [List.mem_singleton] at he
      exact ⟨[], by simp [he]⟩
    · rcases List.mem_cons.mp he with he | he
      · exact ⟨[], by simp [he]⟩
      · obtain ⟨c, s', _, he'⟩ := permLoopD_log_mem eval _ gs cond used _ _ e he
        obtain ⟨t, ht⟩ := ih s' (processFreeCard gs c) cond (used ++ [c]) e he'
        exact ⟨c :: t, by simp [ht]⟩

theorem genPermsAuxD_log_nodup (eval : Evaluator) :
    ∀ (fuel : Nat) (sim : Simulation) (gs : GameState) (cond : BaseCondition)
      (used e : List Card),
      (used.map (fun u => u.id)).Nodup →
      e ∈ (genPermsAuxD eval fuel sim gs cond used).2 →
      (e.map (fun u => u.id)).Nodup := by
  intro fuel
  induction fuel with
  | zero =>
    intro sim gs cond used e hnd he
    simp only [genPermsAuxD, List.mem_singleton] at he
    simpa [he] using hnd
  | succ fuel ih =>
    intro sim gs cond used e hnd he
    simp only [genPermsAuxD] at he
    split at he
    · simp only [List.mem_singleton] at he
      simpa [he] using hnd
    · rcases List.mem_cons.mp he with he | he
      · simpa [he] using hnd
      · obtain ⟨c, s', hc, he'⟩ := permLoopD_log_mem eval _ gs cond used _ _ e he
        have hcand := (mem_candidateFreeCards gs used c).mp hc
        have hnd' : ((used ++ [c]).map (fun u => u.id)).Nodup := by
          rw [List.map_append]
          refine List.Nodup.append hnd (by simp) ?_
          intro a ha hb
          simp only [List.map_cons, List.map_nil, List.mem_singleton] at hb
          obtain ⟨u, hu, hua⟩ := List.mem_map.mp ha
          exact hcand.2.2 u hu (by rw [hua, hb])
        exact ih s' (processFreeCard gs c) cond (used ++ [c]) e hnd' he'

theorem genPermsAuxD_log_length (eval : Evaluator) :
    ∀ (fuel : Nat) (sim : Simulation) (gs : GameState) (cond : BaseCondition)
      (used e : List Card),
      gs.wellFormed →
      e ∈ (genPermsAuxD eval fuel sim gs cond used).2 →
      e.length ≤ used.length + freeCount gs := by
  intro fuel
  induction fuel with
  | zero =>
    intro sim gs cond used e _ he
    simp only [genPermsAuxD, List.mem_singleton] at he
    simp [he]
  | succ fuel ih =>
    intro sim gs cond used e hWF he
    simp only [genPermsAuxD] at he
    split at he
    · simp only [List.mem_singleton] at he
      simp [he]
    · rcases List.mem_cons.mp he with he | he
      · simp [he]
      · obtain ⟨c, s', hc, he'⟩ := permLoopD_log_mem eval _ gs cond used _ _ e he
        have hcand := (mem_candidateFreeCards gs used c).mp hc
        have hhand := (mem_freeCardsInHand gs c).mp hcand.1
        have hWF' := wellFormed_processFreeCard gs c hWF hhand.1
        have hcount := freeCount_processFreeCard gs c hWF hhand.1 hhand.2
        have hlen := ih s' (processFreeCard gs c) cond (used ++ [c]) e hWF' he'
        rw [List.length_append] at hlen
        simp only [List.length_cons, List.length_nil] at hlen
        omega

end LogLemmas

section StabilityLemmas

theorem permLoop_congr (eval : Evaluator)
    (next1 next2 : Simulation → GameState → List Card → Simulation)
    (gs : GameState) (cond : BaseCondition) (used : List Card) :
    ∀ (cs : List Card) (sim : Simulation),
      (∀ (s : Simulation) (c : Card), c ∈ cs →
        next1 s (processFreeCard gs c) (used ++ [c]) =
          next2 s (processFreeCard gs c) (used ++ [c])) →
      permLoop eval next1 gs cond used sim cs =
        permLoop eval next2 gs cond used sim cs := by
  intro cs
  induction cs with
  | nil => intro sim _; rfl
  | cons c rest ih =>
    intro sim h
    simp only [permLoop, SimulationBranch.new_gameState, GameState.deepCopy_eq]
    split
    · split
      · rfl
      · rw [h _ c (List.mem_cons_self c rest)]
        exact ih _ (fun s c' hc' => h s c' (List.mem_cons_of_mem c hc'))
    · exact ih sim (fun s c' hc' => h s c' (List.mem_cons_of_mem c hc'))

theorem genPermsAux_canonical (eval : Evaluator) :
    ∀ (f : Nat) (sim : Simulation) (gs : GameState) (cond : BaseCondition)
      (used : List Card), gs.metric < f →
      genPermsAux eval f sim gs cond used =
        genPermsAux eval (gs.metric + 1) sim gs cond used := by
  intro f
  induction f using Nat.strong_induction_on with
  | _ f ih =>
    intro sim gs cond used hf
    cases f with
    | zero => omega
    | succ f' =>
      simp only [genPermsAux]
      split
      · rfl
      · refine permLoop_congr eval _ _ gs cond used _ sim ?_
        intro s c hc
        have hcand := (mem_candidateFreeCards gs used c).mp hc
        have hhand := (mem_freeCardsInHand gs c).mp hcand.1
        have hm := metric_processFreeCard_lt gs c hhand.1
        have h1 : (processFreeCard gs c).metric < f' := by omega
        have h2 : (processFreeCard gs c).metric < gs.metric := hm
        rw [ih f' (by omega) s (processFreeCard gs c) cond (used ++ [c]) h1,
          ih gs.metric (by omega) s (processFreeCard gs c) cond (used ++ [c]) h2]

theorem genPermsAux_fuel_stable (eval : Evaluator) (f1 f2 : Nat) (sim : Simulation)
    (gs : GameState) (cond : BaseCondition) (used : List Card)
    (h1 : gs.metric < f1) (h2 : gs.metric < f2) :
    genPermsAux eval f1 sim gs cond used = genPermsAux eval f2 sim gs cond used := by
  rw [genPermsAux_canonical eval f1 sim gs cond used h1,
    genPermsAux_canonical eval f2 sim gs cond used h2]

end StabilityLemmas

section SerialisationLemmas

theorem deserialiseCards_serialise :
    ∀ (l : List SerialisedCard) (fresh : Nat),
      (deserialiseCards fresh l).map Card.serialise = l := by
  intro l
  induction l with
  | nil => intro fresh; rfl
  | cons s rest ih =>
    intro fresh
    simp [deserialiseCards, Card.serialise, Card.deserialise, ih]

theorem gameState_serialise_deserialize (fresh : Nat) (s : SerialisedGameState) :
    (GameState.deserialize fresh s).serialise = s := by
  simp [GameState.deserialize, GameState.serialise, deserialiseCards_serialise]

theorem decodeConditions_serialise :
    ∀ (l : List SerialisedCondition) (fresh : Nat),
      (decodeConditions fresh l).map serialiseCondition = l := by
  intro l
  induction l with
  | nil => intro fresh; rfl
  | cons s rest ih =>
    intro fresh
    simp [decodeConditions, serialiseCondition, deserialiseCondition, ih]

theorem decodeConditions_ids :
    ∀ (l : List SerialisedCondition) (fresh : Nat),
      (decodeConditions fresh l).map (fun c => c.id) = List.range' fresh l.length := by
  intro l
  induction l with
  | nil => intro fresh; rfl
  | cons s rest ih =>
    intro fresh
    simp only [List.length_cons, List.range'_succ]
    simp [decodeConditions, deserialiseCondition, ih]

theorem decodeBranches_result :
    ∀ (l : List SerialisedSimulationBranch) (fresh : Nat),
      (decodeBranches fresh l).map (fun b => b.result) = l.map (fun s => s.result) := by
  intro l
  induction l with
  | nil => intro fresh; rfl
  | cons s rest ih =>
    intro fresh
    simp only [decodeBranches, List.map_cons, ih]
    rfl

theorem decodeBranches_condition_ids :
    ∀ (l : List SerialisedSimulationBranch) (fresh : Nat),
      (decodeBranches fresh l).map (fun b => b.condition.id) =
        List.range' fresh l.length := by
  intro l
  induction l with
  | nil => intro fresh; rfl
  | cons s rest ih =>
    intro fresh
    simp only [List.length_cons, List.range'_succ]
    simp only [decodeBranches, List.map_cons, ih]
    rfl

theorem decodeBranches_length (l : List SerialisedSimulationBranch) (fresh : Nat) :
    (decodeBranches fresh l).length = l.length := by
  have h := decodeBranches_condition_ids l fresh
  have := congrArg List.length h
  simpa using this

theorem deserialise_fold_branches :
    ∀ (bs : List SimulationBranch) (sm : Simulation),
      (bs.map (fun b => b.condition.id)).Nodup →
      (∀ b ∈ bs, ∀ e ∈ sm.branches, e.1.id ≠ b.condition.id) →
      (bs.foldl (fun sm b => { sm with branches := insertBranch sm.branches b })
          sm).branches =
        sm.branches ++ bs.map (fun b => (b.condition, [b])) := by
  intro bs
  induction bs with
  | nil => intro sm _ _; simp
  | cons b rest ih =>
    intro sm hnd hdis
    have hnd0 : (b.condition.id :: rest.map (fun x => x.condition.id)).Nodup := by
      simpa using hnd
    have hnd' := List.nodup_cons.mp hnd0
    simp only [List.foldl_cons]
    rw [ih _ hnd'.2 ?hrest]
    case hrest =>
      intro b' hb' e he
      simp only at he
      rw [insertBranch_append_of_not_key sm.branches b
          (fun e' he' => hdis b (List.mem_cons_self b rest) e' he')] at he
      rcases List.mem_append.mp he with he | he
      · exact hdis b' (List.mem_cons_of_mem b hb') e he
      · simp only [List.mem_singleton] at he
        subst he
        simp only
        intro hc
        exact hnd'.1 (hc ▸ List.mem_map_of_mem (fun x => x.condition.id) hb')
    · simp only
      rw [insertBranch_append_of_not_key sm.branches b
          (fun e' he' => hdis b (List.mem_cons_self b rest) e' he')]
      simp [List.append_assoc]

theorem deserialise_fold_gameState :
    ∀ (bs : List SimulationBranch) (sm : Simulation),
      (bs.foldl (fun sm b => { sm with branches := insertBranch sm.branches b })
          sm).gameState = sm.gameState := by
  intro bs
  induction bs with
  | nil => intro sm; rfl
  | cons b rest ih => intro sm; simp only [List.foldl_cons]; rw [ih]

theorem deserialise_fold_conditions :
    ∀ (bs : List SimulationBranch) (sm : Simulation),
      (bs.foldl (fun sm b => { sm with branches := insertBranch sm.branches b })
          sm).conditions = sm.conditions := by
  intro bs
  induction bs with
  | nil => intro sm; rfl
  | cons b rest ih => intro sm; simp only [List.foldl_cons]; rw [ih]

theorem decodedBranches_ids_nodup (fresh : Nat) (s : SerialisedSimulation) :
    ((decodedBranches fresh s).map (fun b => b.condition.id)).Nodup := by
  rw [decodedBranches, decodeBranches_condition_ids]
  exact List.nodup_range' _ _

theorem deserialise_branches (fresh : Nat) (s : SerialisedSimulation) :
    (Simulation.deserialise fresh s).branches =
      (decodedBranches fresh s).map (fun b => (b.condition, [b])) := by
  rw [Simulation.deserialise]
  rw [deserialise_fold_branches _ _ (decodedBranches_ids_nodup fresh s)
    (by intro b _ e he; simp [Simulation.new] at he)]
  simp [Simulation.new]

theorem deserialise_gameState (fresh : Nat) (s : SerialisedSimulation) :
    (Simulation.deserialise fresh s).gameState = GameState.deserialize 0 s.gameState := by
  rw [Simulation.deserialise, deserialise_fold_gameState]
  rfl

theorem deserialise_conditions (fresh : Nat) (s : SerialisedSimulation) :
    (Simulation.deserialise fresh s).conditions = decodeConditions fresh s.conditions := by
  rw [Simulation.deserialise, deserialise_fold_conditions]
  rfl

theorem flatten_result_singletons :
    ∀ (bs : List SimulationBranch),
      ((bs.map (fun b => (b.condition, [b]))).map (fun e => e.2.map
        (fun b => b.result))).flatten = bs.map (fun b => b.result) := by
  intro bs
  induction bs with
  | nil => rfl
  | cons b rest ih =>
    simp only [List.map_cons, List.flatten_cons, ih]
    rfl

theorem serialise_branch_results (sim : Simulation) :
    (sim.serialise).branches.map (fun sb => sb.result) = flatResults sim := by
  simp only [Simulation.serialise, flatResults, List.map_flatten, List.map_map]
  congr 1
  congr 1
  funext e
  simp only [Function.comp_apply, List.map_map]
  rfl

end SerialisationLemmas

section Claims

/-- C1: the claim says that once any recorded branch succeeds, `iterate()`
stops processing entirely and generates no further branches for subsequent
conditions.  The code's `forEach` callback `return` only skips the current
callback, so the code instead records one baseline branch for every
subsequent condition.  Evaluating `iterate` on two conditions where the
evaluator satisfies the first on the unmodified state: the overall result
is true, yet the branch mapping ends with two entries, the second
condition having received its own baseline branch. -/
theorem iterate_records_branch_after_global_success :
    ((Simulation.new stateEmpty [condA, condB]).iterate evalCondA).result = true ∧
    ((Simulation.new stateEmpty [condA, condB]).iterate evalCondA).branches.length = 2 ∧
    lookupBranches ((Simulation.new stateEmpty [condA, condB]).iterate
      evalCondA).branches condB.id ≠ none := by
  decide

/-- C2: `Simulation.result` is true exactly when some branch recorded
anywhere in the branch mapping, under any condition, has a true result —
a disjunction over the entire mapping, not scoped to one condition. -/
theorem result_true_iff_some_branch_succeeds (sim : Simulation) :
    sim.result = true ↔ ∃ e ∈ sim.branches, ∃ b ∈ e.2, b.result = true :=
  result_iff_exists sim

/-- C3 counterexample: the claim bounds the recursion depth of
`generateFreeCardPermutations` by the number of free cards in the starting
hand.  With one free card in hand whose processing draws a free card from
the deck, the call log of the search contains the call with
`usedCards = [cardDrawOne, cardPlain]` — a depth-2 recursive call — while
the hand holds a single free card. -/
theorem genPerms_depth_exceeds_hand_free_count :
    stateDraw.freeCardsInHand.length = 1 ∧
    [cardDrawOne, cardPlain] ∈
      genPermsCallLog evalNever (Simulation.new stateDraw [condA]) stateDraw condA [] := by
  decide

/-- C3 amended: every call of `generateFreeCardPermutations` terminates
(the result is independent of any fuel exceeding the hand-plus-deck
measure), the instrumented twin computes exactly the function's result,
`usedCards` only ever grows along the recursion (every logged call's
`usedCards` extends the root's), and for well-formed states the recursion
depth is bounded by the number of free cards in hand plus deck — not by
the hand alone, since processing a free card can draw further free cards
into the hand. -/
theorem genPerms_terminates_growth_and_depth_bound (eval : Evaluator)
    (sim : Simulation) (gs : GameState) (cond : BaseCondition) (used : List Card)
    (f1 f2 : Nat) (h1 : gs.metric < f1) (h2 : gs.metric < f2)
    (hWF : gs.wellFormed) :
    genPermsAux eval f1 sim gs cond used = genPermsAux eval f2 sim gs cond used ∧
    (genPermsAuxD eval (gs.metric + 1) sim gs cond used).1 =
      Simulation.generateFreeCardPermutations eval sim gs cond used ∧
    ∀ e ∈ genPermsCallLog eval sim gs cond used,
      (∃ t, e = used ++ t) ∧ e.length ≤ used.length + freeCount gs := by
  refine ⟨genPermsAux_fuel_stable eval f1 f2 sim gs cond used h1 h2,
    genPermsAuxD_fst eval _ sim gs cond used, ?_⟩
  intro e he
  exact ⟨genPermsAuxD_log_grows eval _ sim gs cond used e he,
    genPermsAuxD_log_length eval _ sim gs cond used e hWF he⟩

/-- C3 amended, witness at a concrete input. -/
theorem genPerms_terminates_growth_and_depth_bound_witness :
    (genPermsAux evalNever 3 (Simulation.new stateDraw [condA]) stateDraw condA [] =
      genPermsAux evalNever 4 (Simulation.new stateDraw [condA]) stateDraw condA []) ∧
    ((genPermsAuxD evalNever (stateDraw.metric + 1) (Simulation.new stateDraw [condA])
        stateDraw condA []).1 =
      Simulation.generateFreeCardPermutations evalNever
        (Simulation.new stateDraw [condA]) stateDraw condA []) ∧
    ∀ e ∈ genPermsCallLog evalNever (Simulation.new stateDraw [condA]) stateDraw condA [],
      (∃ t, e = ([] : List Card) ++ t) ∧
        e.length ≤ ([] : List Card).length + freeCount stateDraw :=
  genPerms_terminates_growth_and_depth_bound evalNever _ stateDraw condA [] 3 4
    (by decide) (by decide) (by unfold GameState.wellFormed; decide)

/-- C4: along every recursive path of the search, no free-card instance
appears twice in `usedCards` (the object identities logged along any call
are pairwise distinct), and the candidate set excludes exactly the cards
whose object identity is already in `usedCards` — an equal-but-distinct
instance (different identity) stays usable, since only identities are
compared. -/
theorem genPerms_no_reuse_and_identity_exclusion (eval : Evaluator)
    (sim : Simulation) (gs : GameState) (cond : BaseCondition) :
    (∀ e ∈ genPermsCallLog eval sim gs cond [], (e.map (fun u => u.id)).Nodup) ∧
    ∀ (g : GameState) (used : List Card) (c : Card),
      c ∈ candidateFreeCards g used ↔
        c ∈ g.freeCardsInHand ∧ freeCardIsUsable g c = true ∧
          ∀ u ∈ used, u.id ≠ c.id := by
  refine ⟨?_, fun g used c => mem_candidateFreeCards g used c⟩
  intro e he
  exact genPermsAuxD_log_nodup eval _ sim gs cond [] e (by simp) he

/-- C5: after `iterate()` has run, every condition of the list has at
least one recorded branch under its identity; the branch mapping only ever
grows (every previously recorded list is preserved and extended, entries
are never removed); and in the no-free-cards case each condition yields
exactly the single baseline branch (total branch count equals the number
of conditions). -/
theorem iterate_every_condition_recorded_and_monotone (eval : Evaluator)
    (sim : Simulation) :
    (∀ cond ∈ sim.conditions,
      ∃ l, lookupBranches (sim.iterate eval).branches cond.id = some l ∧ l ≠ []) ∧
    BranchMapExtends sim.branches (sim.iterate eval).branches ∧
    (sim.branches = [] → sim.gameState.freeCardsInHand = [] →
      totalBranches (sim.iterate eval) = sim.conditions.length) := by
  refine ⟨?_, iterateFold_extends eval sim.conditions sim, ?_⟩
  · intro cond hc
    exact iterateFold_mem eval sim.conditions sim cond hc
  · intro hb hfree
    show totalBranches (List.foldl (Simulation.iterateStep eval) sim sim.conditions) =
      sim.conditions.length
    rw [iterateFold_total_nofree eval sim.conditions sim hfree]
    simp [totalBranches, hb]

/-- C6: `failedBranches` pairs every entry of the branch mapping, in
order, with at most one branch: the first recorded branch whose result is
false, or none when every recorded branch for that condition succeeded —
never the full list of failures. -/
theorem failedBranches_at_most_first_failure (sim : Simulation) :
    sim.failedBranches.length = sim.branches.length ∧
    List.Forall₂ (fun e f => f.1 = e.1 ∧ IsFirstFailing e.2 f.2)
      sim.branches sim.failedBranches := by
  constructor
  · simp [Simulation.failedBranches]
  · simp only [Simulation.failedBranches]
    rw [List.forall₂_map_right_iff]
    rw [List.forall₂_same]
    intro e _
    exact ⟨rfl, find?_isFirstFailing e.2⟩

/-- C7: round-trip — deserialising a serialised simulation yields a
simulation whose condition list, baseline game state, and flattened branch
results are value-equal to the original's, and whose branch results are
exactly the persisted ones (the evaluator is never consulted:
`Simulation.deserialise` takes no evaluator at all). -/
theorem serialise_deserialise_roundtrip (sim : Simulation) (fresh : Nat) :
    (Simulation.deserialise fresh sim.serialise).conditions.map serialiseCondition =
      sim.conditions.map serialiseCondition ∧
    (Simulation.deserialise fresh sim.serialise).gameState.serialise =
      sim.gameState.serialise ∧
    flatResults (Simulation.deserialise fresh sim.serialise) = flatResults sim ∧
    flatResults (Simulation.deserialise fresh sim.serialise) =
      (sim.serialise).branches.map (fun sb => sb.result) := by
  have h4 : flatResults (Simulation.deserialise fresh sim.serialise) =
      (sim.serialise).branches.map (fun sb => sb.result) := by
    simp only [flatResults]
    rw [deserialise_branches, flatten_result_singletons]
    simp only [decodedBranches]
    rw [decodeBranches_result]
  refine ⟨?_, ?_, ?_, h4⟩
  · rw [deserialise_conditions, decodeConditions_serialise]
    rfl
  · rw [deserialise_gameState, gameState_serialise_deserialize]
    rfl
  · rw [h4, serialise_branch_results]

/-- C8: `SimulationBranch.deserialise` is the normal constructor applied
to the decoded state and the freshly decoded condition, with the `result`
field then overwritten by the persisted value; in particular its result is
exactly the persisted one and its game state is the constructor's deep
copy of the decoded state — `run()` and the evaluator are never
invoked. -/
theorem branch_deserialise_uses_constructor_and_persisted_result
    (fresh : Nat) (sb : SerialisedSimulationBranch) :
    SimulationBranch.deserialise fresh sb =
      { SimulationBranch.new (GameState.deserialize 0 sb.gameState)
          (deserialiseCondition fresh sb.condition) with result := sb.result } ∧
    (SimulationBranch.deserialise fresh sb).result = sb.result ∧
    (SimulationBranch.deserialise fresh sb).gameState =
      (GameState.deserialize 0 sb.gameState).deepCopy :=
  ⟨rfl, rfl, rfl⟩

/-- C9: both constructors snapshot the caller's game state through
`deepCopy` at construction (so no later operation of the simulation or a
branch can reach the caller's state), the branch stores its condition by
reference (identity preserved), the simulation stores the condition list
as given, and iterating never replaces the simulation's own baseline
copy. -/
theorem constructors_deep_copy_and_store_by_reference (gs : GameState)
    (cond : BaseCondition) (conds : List BaseCondition) (eval : Evaluator) :
    (SimulationBranch.new gs cond).gameState = gs.deepCopy ∧
    (SimulationBranch.new gs cond).condition = cond ∧
    (SimulationBranch.new gs cond).result = false ∧
    (Simulation.new gs conds).gameState = gs.deepCopy ∧
    (Simulation.new gs conds).conditions = conds ∧
    ((Simulation.new gs conds).iterate eval).gameState = gs.deepCopy := by
  refine ⟨rfl, rfl, rfl, rfl, rfl, ?_⟩
  exact iterateFold_gameState eval (Simulation.new gs conds).conditions
    (Simulation.new gs conds)

/-- C10: `Simulation.deserialise` keys every decoded branch by that
branch's own freshly decoded condition object: the resulting mapping is
exactly one singleton entry per serialised branch, in order; the decoded
branch conditions' identities are pairwise distinct and distinct from
every identity in the deserialised condition list, so no branch is merged
with another entry even when the decoded conditions are structurally
equal. -/
theorem deserialise_keys_branches_by_fresh_condition (fresh : Nat)
    (s : SerialisedSimulation) :
    (Simulation.deserialise fresh s).branches =
      (decodedBranches fresh s).map (fun b => (b.condition, [b])) ∧
    (decodedBranches fresh s).length = s.branches.length ∧
    ((decodedBranches fresh s).map (fun b => b.condition.id)).Nodup ∧
    ∀ b ∈ decodedBranches fresh s,
      ∀ c ∈ (Simulation.deserialise fresh s).conditions, b.condition.id ≠ c.id := by
  refine ⟨deserialise_branches fresh s, ?_, decodedBranches_ids_nodup fresh s, ?_⟩
  · simp only [decodedBranches]
    exact decodeBranches_length _ _
  · intro b hb c hc
    have hb' : b.condition.id ∈
        List.range' (fresh + s.conditions.length) s.branches.length := by
      have hm := List.mem_map_of_mem (fun b => b.condition.id) hb
      simp only [decodedBranches] at hm
      rwa [decodeBranches_condition_ids] at hm
    have hc' : c.id ∈ List.range' fresh s.conditions.length := by
      rw [deserialise_conditions] at hc
      have hm := List.mem_map_of_mem (fun c => c.id) hc
      rwa [decodeConditions_ids] at hm
    rw [List.mem_range'_1] at hb' hc'
    omega

end Claims
